import Mathlib

/-!
Verification of the threaded-comment tree construction and optimistic
mutation protocol of the QA discussion feature
(frontend/src/components/qa/QAComments.js, frontend/src/components/QASection.js,
frontend/src/components/qa/CommentReactions.js).

The JavaScript source is shallowly embedded: comment records become a Lean
structure, the JS object `commentMap` becomes an association list keyed by
comment id, and the node objects it stores are identified with their ids
(in the source, `commentMap[id]` always returns the one node object built
for `id`, so a node's identity is its id; the `replies` array of a node is
therefore represented as the list of ids of the nodes pushed into it).
Nullable numeric fields become `Option Nat`; JavaScript truthiness of a
number-or-null value (`if (comment.parent_comment_id)`) is `getD 0 ≠ 0`.
-/

namespace AmendQA

/-- A QA comment record as delivered by the API and held in the component's
flat `comments` list (fields read by `buildCommentTree` and the handlers). -/
structure JComment where
  comment_id : Nat
  parent_comment_id : Option Nat
  employee_id : Nat
  comment_text : String
  comment_type : String
deriving DecidableEq, Repr

/-- A node of the threaded tree: the clone `{ ...comment, replies: [] }`
built in the first pass of `buildCommentTree`.  `replies` holds the ids of
the child nodes pushed in the second pass (node objects are identified with
their ids, see the file comment). -/
structure CNode where
  data : JComment
  replies : List Nat
deriving DecidableEq, Repr

/-- JavaScript truthiness of a number-or-null value: `null`/`undefined` and
`0` are falsy, every other number is truthy. -/
def jsTruthy (o : Option Nat) : Bool :=
  o.getD 0 != 0

/-- Association-list map with JS-object assignment semantics
(`m[k] = v` overwrites in place). -/
def alInsert {β : Type} (m : List (Nat × β)) (k : Nat) (v : β) : List (Nat × β) :=
  match m with
  | [] => [(k, v)]
  | (k', v') :: rest => if k' = k then (k, v) :: rest else (k', v') :: alInsert rest k v

/-- Lookup in the association-list map (`m[k]`). -/
def alLookup {β : Type} (m : List (Nat × β)) (k : Nat) : Option β :=
  match m with
  | [] => none
  | (k', v) :: rest => if k' = k then some v else alLookup rest k

/-- In-place update of the value at key `k`, if present
(models mutating the object stored at `m[k]`). -/
def alModify {β : Type} (m : List (Nat × β)) (k : Nat) (f : β → β) : List (Nat × β) :=
  match m with
  | [] => []
  | (k', v) :: rest => if k' = k then (k, f v) :: rest else (k', v) :: alModify rest k f

/-- First pass of `buildCommentTree`:
`comments.forEach(c => { commentMap[c.comment_id] = { ...c, replies: [] } })`. -/
def pass1 (cs : List JComment) : List (Nat × CNode) :=
  cs.foldl (fun m c => alInsert m c.comment_id ⟨c, []⟩) []

/-- One step of the second pass of `buildCommentTree`: for a comment with a
truthy `parent_comment_id`, push its node onto the parent node's `replies`
if the parent is in the map (and silently do nothing otherwise); for a
falsy `parent_comment_id`, push its node onto `rootComments`. -/
def pass2Step (st : List (Nat × CNode) × List Nat) (c : JComment) :
    List (Nat × CNode) × List Nat :=
  if jsTruthy c.parent_comment_id then
    let p := c.parent_comment_id.getD 0
    match alLookup st.1 p with
    | some _ =>
        (alModify st.1 p (fun nd => ⟨nd.data, nd.replies ++ [c.comment_id]⟩), st.2)
    | none => st
  else
    (st.1, st.2 ++ [c.comment_id])

/-- `buildCommentTree` (QAComments.js lines 249-273).  Returns the heap of
nodes (the `commentMap`) together with the list of root ids
(`rootComments`); the rendered forest is the unfolding of the roots
through the map. -/
def buildCommentTree (cs : List JComment) : List (Nat × CNode) × List Nat :=
  cs.foldl pass2Step (pass1 cs, [])

/-- The ids of the comments in the flat list. -/
def idsOf (cs : List JComment) : List Nat :=
  cs.map (·.comment_id)

/-- The first comment in the list carrying a given id (under unique ids,
the one comment with that id). -/
def origOf (cs : List JComment) (k : Nat) : Option JComment :=
  cs.find? (fun c => c.comment_id == k)

/-- The comment's parent reference is truthy and aimed at `p`. -/
def goesTo (p : Nat) (c : JComment) : Bool :=
  jsTruthy c.parent_comment_id && (c.parent_comment_id.getD 0 == p)

/-- The reply list the second pass accumulates for parent id `p` after
processing prefix `pre`: the ids of the comments of `pre` aimed at `p`,
in list order. -/
def childList (pre : List JComment) (p : Nat) : List Nat :=
  (pre.filter (goesTo p)).map (·.comment_id)

/-- The root-id list accumulated after processing prefix `pre`: the ids of
the comments of `pre` with falsy parent reference, in list order. -/
def rootList (pre : List JComment) : List Nat :=
  (pre.filter (fun c => !jsTruthy c.parent_comment_id)).map (·.comment_id)

/-- Well-formed API data: ids are unique (server-assigned primary keys) and
ids and parent references are nonzero (auto-incrementing integer ids start
at 1, so 0 is never an id and never a parent reference). -/
def WFList (cs : List JComment) : Prop :=
  (idsOf cs).Nodup ∧ ∀ c ∈ cs, c.comment_id ≠ 0 ∧ c.parent_comment_id ≠ some 0

theorem alLookup_insert {β : Type} (m : List (Nat × β)) (k k' : Nat) (v : β) :
    alLookup (alInsert m k v) k' = if k' = k then some v else alLookup m k' := by
  induction m with
  | nil =>
      simp only [alInsert, alLookup]
      by_cases h : k = k'
      · simp [h]
      · simp [h, Ne.symm h]
  | cons kv rest ih =>
      obtain ⟨k₀, v₀⟩ := kv
      simp only [alInsert]
      by_cases h0 : k₀ = k
      · subst h0
        simp only [if_pos rfl, alLookup]
        by_cases h1 : k₀ = k'
        · simp [h1]
        · simp [h1, Ne.symm h1]
      · simp only [if_neg h0, alLookup]
        by_cases h1 : k₀ = k'
        · subst h1
          simp [h0]
        · simp [h1, ih]

theorem alLookup_modify {β : Type} (m : List (Nat × β)) (k k' : Nat) (f : β → β) :
    alLookup (alModify m k f) k' =
      if k' = k then (alLookup m k).map f else alLookup m k' := by
  induction m with
  | nil =>
      simp only [alModify, alLookup]
      by_cases h : k' = k
      · simp [h]
      · simp [h]
  | cons kv rest ih =>
      obtain ⟨k₀, v₀⟩ := kv
      simp only [alModify]
      by_cases h0 : k₀ = k
      · subst h0
        simp only [if_pos rfl, alLookup]
        by_cases h1 : k₀ = k'
        · simp [h1]
        · simp [h1, Ne.symm h1]
      · simp only [if_neg h0, alLookup]
        by_cases h1 : k₀ = k'
        · subst h1
          simp [h0]
        · simp [h1, ih]

/-- Fold a list while maintaining an invariant relating the accumulator to
the processed prefix. -/
theorem foldl_inv {α σ : Type} (f : σ → α → σ) (P : σ → List α → Prop)
    (hstep : ∀ s pre a, P s pre → P (f s a) (pre ++ [a])) :
    ∀ (l : List α) (s : σ) (pre : List α), P s pre → P (l.foldl f s) (pre ++ l) := by
  intro l
  induction l with
  | nil => intro s pre h; simpa using h
  | cons a l ih =>
      intro s pre h
      have h' := ih (f s a) (pre ++ [a]) (hstep s pre a h)
      simpa using h'

theorem pass1_go (cs : List JComment) :
    ∀ (m : List (Nat × CNode)) (k : Nat),
      alLookup (cs.foldl (fun m c => alInsert m c.comment_id ⟨c, []⟩) m) k =
        match cs.reverse.find? (fun c => c.comment_id == k) with
        | some c => some ⟨c, []⟩
        | none => alLookup m k := by
  induction cs with
  | nil => intro m k; simp
  | cons c cs ih =>
      intro m k
      rw [List.foldl_cons, ih]
      rw [List.reverse_cons, List.find?_append]
      cases hfind : cs.reverse.find? (fun c => c.comment_id == k) with
      | some d => simp [hfind]
      | none =>
          by_cases hc : c.comment_id = k
          · simp [hfind, hc, alLookup_insert]
          · simp [hfind, hc, alLookup_insert, Ne.symm hc]

theorem reverse_find?_of_nodup (cs : List JComment) (h : (idsOf cs).Nodup) (k : Nat) :
    cs.reverse.find? (fun c => c.comment_id == k) = origOf cs k := by
  induction cs with
  | nil => simp [origOf]
  | cons c cs ih =>
      have hnd : (idsOf cs).Nodup := (List.nodup_cons.mp h).2
      have hnotin : c.comment_id ∉ idsOf cs := (List.nodup_cons.mp h).1
      rw [List.reverse_cons, List.find?_append, ih hnd]
      cases horig : origOf cs k with
      | some d =>
          have hdk : d.comment_id = k := by
            have := List.find?_some horig
            simpa using this
          have hdmem : d ∈ cs := List.mem_of_find?_eq_some horig
          have hc : ¬(c.comment_id = k) := by
            intro he
            exact hnotin (by
              rw [he, ← hdk]
              exact List.mem_map_of_mem (·.comment_id) hdmem)
          have horig' : cs.find? (fun c => c.comment_id == k) = some d := horig
          simp [origOf, List.find?_cons, hc, horig']
      | none =>
          have hnone : ∀ x ∈ cs, ¬(x.comment_id = k) := by
            intro x hx hxk
            have := List.find?_eq_none.mp horig x hx
            simp [hxk] at this
          have horig' : cs.find? (fun c => c.comment_id == k) = none := horig
          by_cases hc : c.comment_id = k
          · simp [origOf, List.find?_cons, hc]
          · simp [origOf, List.find?_cons, hc, horig']

theorem pass1_lookup (cs : List JComment) (h : (idsOf cs).Nodup) (k : Nat) :
    alLookup (pass1 cs) k = (origOf cs k).map (fun c => (⟨c, []⟩ : CNode)) := by
  rw [pass1, pass1_go, reverse_find?_of_nodup cs h]
  cases origOf cs k <;> simp [alLookup]

/-- The map the second pass has built after processing prefix `pre`:
every id carries its clone, with the replies collected so far. -/
def expMap (cs pre : List JComment) (k : Nat) : Option CNode :=
  (origOf cs k).map (fun c => ⟨c, childList pre k⟩)

theorem pass2Step_push (st : List (Nat × CNode) × List Nat) (c : JComment) (nd : CNode)
    (htr : jsTruthy c.parent_comment_id = true)
    (hf : alLookup st.1 (c.parent_comment_id.getD 0) = some nd) :
    pass2Step st c =
      (alModify st.1 (c.parent_comment_id.getD 0)
        (fun nd => ⟨nd.data, nd.replies ++ [c.comment_id]⟩), st.2) := by
  simp only [pass2Step, htr, if_true, hf]

theorem pass2Step_drop (st : List (Nat × CNode) × List Nat) (c : JComment)
    (htr : jsTruthy c.parent_comment_id = true)
    (hf : alLookup st.1 (c.parent_comment_id.getD 0) = none) :
    pass2Step st c = st := by
  simp only [pass2Step, htr, if_true, hf]

theorem pass2Step_root (st : List (Nat × CNode) × List Nat) (c : JComment)
    (htr : jsTruthy c.parent_comment_id = false) :
    pass2Step st c = (st.1, st.2 ++ [c.comment_id]) := by
  simp only [pass2Step, htr, if_false, Bool.false_eq_true]

theorem pass2Step_inv (cs : List JComment)
    (st : List (Nat × CNode) × List Nat) (pre : List JComment) (c : JComment)
    (hmap : ∀ k, alLookup st.1 k = expMap cs pre k) (hroot : st.2 = rootList pre) :
    (∀ k, alLookup (pass2Step st c).1 k = expMap cs (pre ++ [c]) k)
      ∧ (pass2Step st c).2 = rootList (pre ++ [c]) := by
  by_cases htr : jsTruthy c.parent_comment_id = true
  · have hchild : ∀ k, childList (pre ++ [c]) k =
        childList pre k ++ (if k = c.parent_comment_id.getD 0 then [c.comment_id] else []) := by
      intro k
      by_cases hk : k = c.parent_comment_id.getD 0
      · simp [childList, List.filter_append, goesTo, htr, hk]
      · simp [childList, List.filter_append, goesTo, htr, hk, Ne.symm hk]
    have hroot' : rootList (pre ++ [c]) = rootList pre := by
      simp [rootList, List.filter_append, htr]
    cases horig : origOf cs (c.parent_comment_id.getD 0) with
    | some oc =>
        have hlook : alLookup st.1 (c.parent_comment_id.getD 0) =
            some ⟨oc, childList pre (c.parent_comment_id.getD 0)⟩ := by
          rw [hmap, expMap, horig]; rfl
        refine ⟨fun k => ?_, ?_⟩
        · rw [pass2Step_push st c _ htr hlook]
          dsimp only
          rw [alLookup_modify]
          by_cases hk : k = c.parent_comment_id.getD 0
          · rw [if_pos hk, hk, hlook, expMap, horig, hchild]
            simp
          · rw [if_neg hk, hmap k, expMap, expMap, hchild k]
            simp [hk]
        · rw [pass2Step_push st c _ htr hlook]
          dsimp only
          rw [hroot, hroot']
    | none =>
        have hlook : alLookup st.1 (c.parent_comment_id.getD 0) = none := by
          rw [hmap, expMap, horig]; rfl
        rw [pass2Step_drop st c htr hlook]
        refine ⟨fun k => ?_, ?_⟩
        · rw [hmap k, expMap, expMap]
          by_cases hk : k = c.parent_comment_id.getD 0
          · rw [hk, horig]
            simp
          · rw [hchild k]
            simp [hk]
        · rw [hroot, hroot']
  · have htr' : jsTruthy c.parent_comment_id = false := by
      revert htr
      cases jsTruthy c.parent_comment_id <;> simp
    have hchild : ∀ k, childList (pre ++ [c]) k = childList pre k := by
      intro k
      simp [childList, List.filter_append, goesTo, htr']
    have hroot' : rootList (pre ++ [c]) = rootList pre ++ [c.comment_id] := by
      simp [rootList, List.filter_append, htr']
    rw [pass2Step_root st c htr']
    refine ⟨fun k => ?_, ?_⟩
    · dsimp only
      rw [hmap k, expMap, expMap, hchild k]
    · dsimp only
      rw [hroot, hroot']

/-- Characterization of `buildCommentTree` for lists with unique ids: the
node map carries, for every id occurring in the list, its clone with the
ids of the comments aimed at it (in original list order) as replies; the
root list is the ids of the comments with falsy `parent_comment_id`, in
original list order. -/
theorem buildCommentTree_spec (cs : List JComment) (h : (idsOf cs).Nodup) :
    (∀ k, alLookup (buildCommentTree cs).1 k =
        (origOf cs k).map (fun c => (⟨c, childList cs k⟩ : CNode)))
      ∧ (buildCommentTree cs).2 = rootList cs := by
  have hinit : (∀ k, alLookup (pass1 cs, ([] : List Nat)).1 k = expMap cs [] k)
      ∧ (pass1 cs, ([] : List Nat)).2 = rootList [] := by
    constructor
    · intro k
      rw [pass1_lookup cs h, expMap]
      simp [childList]
    · simp [rootList]
  have := foldl_inv pass2Step
    (fun st pre => (∀ k, alLookup st.1 k = expMap cs pre k) ∧ st.2 = rootList pre)
    (fun st pre c hP => pass2Step_inv cs st pre c hP.1 hP.2)
    cs (pass1 cs, []) [] hinit
  simp only [List.nil_append] at this
  exact ⟨fun k => this.1 k, this.2⟩

theorem id_inj (cs : List JComment) (h : (idsOf cs).Nodup) {c d : JComment}
    (hc : c ∈ cs) (hd : d ∈ cs) (he : c.comment_id = d.comment_id) : c = d :=
  List.inj_on_of_nodup_map h hc hd he

theorem mem_ids_of_origOf (cs : List JComment) (k : Nat) (oc : JComment)
    (h : origOf cs k = some oc) : k ∈ idsOf cs := by
  have hmem : oc ∈ cs := List.mem_of_find?_eq_some h
  have hk : oc.comment_id = k := by
    have := List.find?_some h
    simpa using this
  exact hk ▸ List.mem_map_of_mem (·.comment_id) hmem

theorem origOf_isSome (cs : List JComment) (k : Nat) (h : k ∈ idsOf cs) :
    (origOf cs k).isSome := by
  rw [origOf, List.find?_isSome]
  obtain ⟨c, hc, hck⟩ := List.mem_map.mp h
  exact ⟨c, hc, by simp [hck]⟩

theorem rootList_eq (cs : List JComment) (hwf : WFList cs) :
    rootList cs = (cs.filter (fun c => c.parent_comment_id == none)).map (·.comment_id) := by
  unfold rootList
  congr 1
  apply List.filter_congr
  intro c hc
  have h2 := (hwf.2 c hc).2
  cases hpc : c.parent_comment_id with
  | none => simp [jsTruthy]
  | some q =>
      have hq : q ≠ 0 := by
        intro h0
        exact h2 (by rw [hpc, h0])
      simp [jsTruthy, hq]

theorem childList_eq (cs : List JComment) (hwf : WFList cs) (p : Nat) :
    childList cs p = (cs.filter (fun c => c.parent_comment_id == some p)).map (·.comment_id) := by
  unfold childList
  congr 1
  apply List.filter_congr
  intro c hc
  have h2 := (hwf.2 c hc).2
  cases hpc : c.parent_comment_id with
  | none => simp [goesTo, jsTruthy, hpc]
  | some q =>
      have hq : q ≠ 0 := by
        intro h0
        exact h2 (by rw [hpc, h0])
      simp [goesTo, jsTruthy, hq, hpc]

/-- The single-comment input whose `parent_comment_id` references id 42,
which does not occur in the list. -/
def cexOrphan : List JComment :=
  [⟨1, some 42, 7, "orphaned reply", "General"⟩]

/-- C1 counterexample: on the list containing only a comment with id 1 and
`parentId = 42` (a non-existent id), `buildCommentTree` produces an empty
root list — the orphan is dropped from the output forest, not promoted to
a root as the claim states. -/
theorem claim1_counterexample :
    (⟨1, some 42, 7, "orphaned reply", "General"⟩ : JComment) ∈ cexOrphan
    ∧ 42 ∉ idsOf cexOrphan
    ∧ 1 ∉ (buildCommentTree cexOrphan).2 := by
  refine ⟨by decide, by decide, by decide⟩

/-- C1 (amended): for a list with unique, nonzero ids and nonzero parent
references, a comment whose `parentId` references an id that does not occur
in the list is silently dropped: its id appears neither in the root list
nor in any node's replies, so it is absent from the output forest.
Building itself is total and never crashes. -/
theorem claim1_orphan_dropped (cs : List JComment) (hwf : WFList cs)
    (c : JComment) (hc : c ∈ cs) (p : Nat) (hp : c.parent_comment_id = some p)
    (hnp : p ∉ idsOf cs) :
    c.comment_id ∉ (buildCommentTree cs).2
    ∧ ∀ k nd, alLookup (buildCommentTree cs).1 k = some nd →
        c.comment_id ∉ nd.replies := by
  obtain ⟨hmap, hroot⟩ := buildCommentTree_spec cs hwf.1
  have hpz : p ≠ 0 := by
    intro h0
    exact (hwf.2 c hc).2 (by rw [hp, h0])
  constructor
  · rw [hroot, rootList_eq cs hwf]
    intro hmem
    obtain ⟨d, hd, hdc⟩ := List.mem_map.mp hmem
    obtain ⟨hdm, hdnone⟩ := List.mem_filter.mp hd
    have : d = c := id_inj cs hwf.1 hdm hc hdc
    subst this
    rw [hp] at hdnone
    simp at hdnone
  · intro k nd hlook
    rw [hmap k] at hlook
    cases horig : origOf cs k with
    | none => rw [horig] at hlook; simp at hlook
    | some oc =>
        rw [horig] at hlook
        have hrep : nd.replies = childList cs k := by
          cases hlook.symm with
          | refl => rfl
        rw [hrep, childList_eq cs hwf]
        intro hmem
        obtain ⟨d, hd, hdc⟩ := List.mem_map.mp hmem
        obtain ⟨hdm, hdpar⟩ := List.mem_filter.mp hd
        have : d = c := id_inj cs hwf.1 hdm hc hdc
        subst this
        rw [hp] at hdpar
        have hkp : p = k := by simpa using hdpar
        exact hnp (by rw [hkp]; exact mem_ids_of_origOf cs k oc horig)

/-- Witness input for C1 (amended): a two-comment list where comment 2's
parent reference 9 does not occur. -/
def wOrphan : List JComment :=
  [⟨1, none, 7, "root", "General"⟩, ⟨2, some 9, 7, "reply", "General"⟩]

theorem claim1_orphan_dropped_witness :
    (⟨2, some 9, 7, "reply", "General"⟩ : JComment).comment_id ∉ (buildCommentTree wOrphan).2
    ∧ ∀ k nd, alLookup (buildCommentTree wOrphan).1 k = some nd →
        (⟨2, some 9, 7, "reply", "General"⟩ : JComment).comment_id ∉ nd.replies :=
  claim1_orphan_dropped wOrphan
    (by constructor
        · decide
        · intro c hc
          fin_cases hc <;> exact ⟨by decide, by decide⟩)
    ⟨2, some 9, 7, "reply", "General"⟩ (by decide) 9 rfl (by decide)

/-- The end-to-end scenario list
`[ {id:1,parentId:null}, {id:2,parentId:1}, {id:3,parentId:null}, {id:4,parentId:2} ]`. -/
def exList : List JComment :=
  [⟨1, none, 7, "c1", "General"⟩, ⟨2, some 1, 7, "c2", "General"⟩,
   ⟨3, none, 7, "c3", "General"⟩, ⟨4, some 2, 7, "c4", "General"⟩]

/-- C2: for every list with unique (nonzero) ids, a comment with null
`parentId` is a root; a comment whose `parentId` matches an existing id is
a direct child of that id's node; the root list is the null-parent comments
in original list order and each node's replies are the comments aimed at it
in original list order; and the concrete scenario
`[{1,null},{2,1},{3,null},{4,2}]` builds the forest
`[{1,children:[{2,children:[{4}]}]},{3}]`. -/
theorem claim2_placement_and_order (cs : List JComment) (hwf : WFList cs) :
    ((buildCommentTree cs).2
        = (cs.filter (fun c => c.parent_comment_id == none)).map (·.comment_id))
    ∧ (∀ p, p ∈ idsOf cs → ∃ oc, origOf cs p = some oc ∧
        alLookup (buildCommentTree cs).1 p =
          some ⟨oc, (cs.filter (fun c => c.parent_comment_id == some p)).map (·.comment_id)⟩)
    ∧ (∀ c ∈ cs, c.parent_comment_id = none → c.comment_id ∈ (buildCommentTree cs).2)
    ∧ (∀ c ∈ cs, ∀ p, c.parent_comment_id = some p → p ∈ idsOf cs →
        ∀ nd, alLookup (buildCommentTree cs).1 p = some nd → c.comment_id ∈ nd.replies)
    ∧ (buildCommentTree exList).2 = [1, 3]
    ∧ (alLookup (buildCommentTree exList).1 1).map (·.replies) = some [2]
    ∧ (alLookup (buildCommentTree exList).1 2).map (·.replies) = some [4]
    ∧ (alLookup (buildCommentTree exList).1 3).map (·.replies) = some []
    ∧ (alLookup (buildCommentTree exList).1 4).map (·.replies) = some [] := by
  obtain ⟨hmap, hroot⟩ := buildCommentTree_spec cs hwf.1
  have hroots : (buildCommentTree cs).2
      = (cs.filter (fun c => c.parent_comment_id == none)).map (·.comment_id) := by
    rw [hroot, rootList_eq cs hwf]
  have hnodes : ∀ p, p ∈ idsOf cs → ∃ oc, origOf cs p = some oc ∧
      alLookup (buildCommentTree cs).1 p =
        some ⟨oc, (cs.filter (fun c => c.parent_comment_id == some p)).map (·.comment_id)⟩ := by
    intro p hp
    obtain ⟨oc, horig⟩ := Option.isSome_iff_exists.mp (origOf_isSome cs p hp)
    refine ⟨oc, horig, ?_⟩
    rw [hmap p, horig, ← childList_eq cs hwf]
    rfl
  refine ⟨hroots, hnodes, ?_, ?_, by decide, by decide, by decide, by decide, by decide⟩
  · intro c hc hnone
    rw [hroots]
    exact List.mem_map_of_mem _ (List.mem_filter.mpr ⟨hc, by simp [hnone]⟩)
  · intro c hc p hp hpin nd hnd
    obtain ⟨oc, _, hlook⟩ := hnodes p hpin
    rw [hlook] at hnd
    have : nd = ⟨oc, (cs.filter (fun c => c.parent_comment_id == some p)).map (·.comment_id)⟩ := by
      cases hnd with
      | refl => rfl
    rw [this]
    exact List.mem_map_of_mem _ (List.mem_filter.mpr ⟨hc, by simp [hp]⟩)

theorem claim2_placement_and_order_witness :
    (buildCommentTree exList).2
        = (exList.filter (fun c => c.parent_comment_id == none)).map (·.comment_id)
    ∧ (∀ p, p ∈ idsOf exList → ∃ oc, origOf exList p = some oc ∧
        alLookup (buildCommentTree exList).1 p =
          some ⟨oc, (exList.filter (fun c => c.parent_comment_id == some p)).map (·.comment_id)⟩)
    ∧ (∀ c ∈ exList, c.parent_comment_id = none → c.comment_id ∈ (buildCommentTree exList).2)
    ∧ (∀ c ∈ exList, ∀ p, c.parent_comment_id = some p → p ∈ idsOf exList →
        ∀ nd, alLookup (buildCommentTree exList).1 p = some nd → c.comment_id ∈ nd.replies)
    ∧ (buildCommentTree exList).2 = [1, 3]
    ∧ (alLookup (buildCommentTree exList).1 1).map (·.replies) = some [2]
    ∧ (alLookup (buildCommentTree exList).1 2).map (·.replies) = some [4]
    ∧ (alLookup (buildCommentTree exList).1 3).map (·.replies) = some []
    ∧ (alLookup (buildCommentTree exList).1 4).map (·.replies) = some [] :=
  claim2_placement_and_order exList
    (by constructor
        · decide
        · intro c hc
          fin_cases hc <;> exact ⟨by decide, by decide⟩)

/-- `handleDeleteComment`'s local-list update (QAComments.js lines 201-211):
after the server confirms, `setComments(comments.filter(c => c.comment_id
!== commentId))`; on error the list is left unchanged. -/
def handleDeleteComment (cs : List JComment) (cid : Nat) (ok : Bool) : List JComment :=
  if ok then cs.filter (fun c => c.comment_id != cid) else cs

/-- `handleEditComment`'s local-list update (QAComments.js lines 183-199):
on success, `setComments(comments.map(c => c.comment_id === commentId ?
response.data : c))`; on error the list is left unchanged.  No reload of
the list is performed. -/
def handleEditComment (cs : List JComment) (cid : Nat) (updated : JComment)
    (ok : Bool) : List JComment :=
  if ok then cs.map (fun c => if c.comment_id == cid then updated else c) else cs

theorem nodup_split_ids {cs l1 l2 : List JComment} {x : JComment}
    (hnd : (idsOf cs).Nodup) (hsplit : cs = l1 ++ x :: l2) :
    (∀ c ∈ l1, c.comment_id ≠ x.comment_id) ∧ (∀ c ∈ l2, c.comment_id ≠ x.comment_id) := by
  subst hsplit
  rw [idsOf, List.map_append, List.map_cons] at hnd
  obtain ⟨h1, h2, hdisj⟩ := List.nodup_append.mp hnd
  constructor
  · intro c hc he
    exact hdisj (List.mem_map_of_mem (·.comment_id) hc) (by simp [he])
  · intro c hc he
    exact (List.nodup_cons.mp h2).1 (by
      rw [← he]
      exact List.mem_map_of_mem (·.comment_id) hc)

/-- C7: after a successful delete, the local list is the previous list with
exactly the comment whose id is `cid` removed; every other comment stays,
in order.  Replies that referenced the deleted comment as parent are kept
(no client-side cascade). -/
theorem claim7_delete_removes_exactly_one (cs : List JComment) (cid : Nat)
    (x : JComment) (hnd : (idsOf cs).Nodup) (hx : x ∈ cs) (hxid : x.comment_id = cid) :
    (∃ l1 l2, cs = l1 ++ x :: l2 ∧ handleDeleteComment cs cid true = l1 ++ l2)
    ∧ (∀ c ∈ cs, c.comment_id ≠ cid → c ∈ handleDeleteComment cs cid true)
    ∧ (∀ c ∈ cs, c.parent_comment_id = some cid → c.comment_id ≠ cid →
        c ∈ handleDeleteComment cs cid true) := by
  obtain ⟨l1, l2, hsplit⟩ := List.append_of_mem hx
  obtain ⟨h1, h2⟩ := nodup_split_ids hnd hsplit
  have hfilter : handleDeleteComment cs cid true = l1 ++ l2 := by
    rw [handleDeleteComment, if_pos rfl, hsplit, List.filter_append,
      List.filter_cons_of_neg (by simp [hxid]),
      List.filter_eq_self.mpr (fun c hc => by simp [hxid ▸ h1 c hc]),
      List.filter_eq_self.mpr (fun c hc => by simp [hxid ▸ h2 c hc])]
  refine ⟨⟨l1, l2, hsplit, hfilter⟩, ?_, ?_⟩
  · intro c hc hne
    rw [handleDeleteComment, if_pos rfl]
    exact List.mem_filter.mpr ⟨hc, by simp [hne]⟩
  · intro c hc _ hne
    rw [handleDeleteComment, if_pos rfl]
    exact List.mem_filter.mpr ⟨hc, by simp [hne]⟩

/-- Witness list for C7/C8: three comments, comment 2 replying to comment 1. -/
def wList : List JComment :=
  [⟨1, none, 7, "a", "General"⟩, ⟨2, some 1, 7, "b", "General"⟩,
   ⟨3, none, 7, "c", "General"⟩]

theorem claim7_delete_removes_exactly_one_witness :
    (∃ l1 l2, wList = l1 ++ (⟨1, none, 7, "a", "General"⟩ : JComment) :: l2
        ∧ handleDeleteComment wList 1 true = l1 ++ l2)
    ∧ (∀ c ∈ wList, c.comment_id ≠ 1 → c ∈ handleDeleteComment wList 1 true)
    ∧ (∀ c ∈ wList, c.parent_comment_id = some 1 → c.comment_id ≠ 1 →
        c ∈ handleDeleteComment wList 1 true) :=
  claim7_delete_removes_exactly_one wList 1 ⟨1, none, 7, "a", "General"⟩
    (by decide) (by decide) rfl

/-- C8: after a successful edit, only the single comment whose id is `cid`
is replaced by the server's updated record; all other comments are
unchanged in place and the list length is unchanged. -/
theorem claim8_edit_patches_in_place (cs : List JComment) (cid : Nat)
    (updated x : JComment) (hnd : (idsOf cs).Nodup) (hx : x ∈ cs)
    (hxid : x.comment_id = cid) :
    (∃ l1 l2, cs = l1 ++ x :: l2
        ∧ handleEditComment cs cid updated true = l1 ++ updated :: l2)
    ∧ (handleEditComment cs cid updated true).length = cs.length := by
  obtain ⟨l1, l2, hsplit⟩ := List.append_of_mem hx
  obtain ⟨h1, h2⟩ := nodup_split_ids hnd hsplit
  have hmapped : handleEditComment cs cid updated true = l1 ++ updated :: l2 := by
    rw [handleEditComment, if_pos rfl, hsplit, List.map_append, List.map_cons]
    have hxe : (if x.comment_id == cid then updated else x) = updated := by
      simp [hxid]
    rw [hxe]
    have hl1 : l1.map (fun c => if c.comment_id == cid then updated else c) = l1 := by
      rw [show l1 = l1.map id by simp]
      rw [List.map_map]
      apply List.map_congr_left
      intro c hc
      simp [hxid ▸ h1 c hc]
    have hl2 : l2.map (fun c => if c.comment_id == cid then updated else c) = l2 := by
      rw [show l2 = l2.map id by simp]
      rw [List.map_map]
      apply List.map_congr_left
      intro c hc
      simp [hxid ▸ h2 c hc]
    rw [hl1, hl2]
  exact ⟨⟨l1, l2, hsplit, hmapped⟩, by rw [hmapped, hsplit]; simp⟩

theorem claim8_edit_patches_in_place_witness :
    (∃ l1 l2, wList = l1 ++ (⟨2, some 1, 7, "b", "General"⟩ : JComment) :: l2
        ∧ handleEditComment wList 2 ⟨2, some 1, 7, "b2", "General"⟩ true
            = l1 ++ (⟨2, some 1, 7, "b2", "General"⟩ : JComment) :: l2)
    ∧ (handleEditComment wList 2 ⟨2, some 1, 7, "b2", "General"⟩ true).length
        = wList.length :=
  claim8_edit_patches_in_place wList 2 ⟨2, some 1, 7, "b2", "General"⟩
    ⟨2, some 1, 7, "b", "General"⟩ (by decide) (by decide) rfl

/-- `text.lastIndexOf('@')` on a character list: the index of the last
occurrence of the at sign, `none` when absent. -/
def lastAtIndex : List Char → Option Nat
  | [] => none
  | c :: rest =>
      match lastAtIndex rest with
      | some i => some (i + 1)
      | none => if c = '@' then some 0 else none

/-- The mention-detection part of `handleTextChange` (QAComments.js lines
78-103): find the last at sign; if the text after it has no space character
and is non-empty, that text is the active mention query; otherwise the
suggestion popup is closed (`none`). -/
def handleTextChange (text : List Char) : Option (List Char) :=
  match lastAtIndex text with
  | none => none
  | some lastAt =>
      let afterAt := text.drop (lastAt + 1)
      if ¬afterAt.contains ' ' ∧ afterAt.length > 0 then some afterAt else none

/-- `searchEmployees`' own guard: it returns without a request when the
query is empty, otherwise it issues the directory lookup. -/
def searchEmployeesIssues (q : List Char) : Bool :=
  !(q.length < 1)

/-- Whether a keystroke handled by `handleTextChange` issues a directory
lookup request: only the active branch calls `searchEmployees`, whose own
guard then passes for the non-empty query. -/
def handleTextChangeCalls (text : List Char) : Bool :=
  match handleTextChange text with
  | some q => searchEmployeesIssues q
  | none => false

theorem lastAtIndex_none_iff (t : List Char) : lastAtIndex t = none ↔ '@' ∉ t := by
  induction t with
  | nil => simp [lastAtIndex]
  | cons c rest ih =>
      cases hrest : lastAtIndex rest with
      | some i =>
          simp only [lastAtIndex, hrest]
          constructor
          · intro h; exact absurd h (by simp)
          · intro h
            exact absurd (ih.mpr (fun hm => h (List.mem_cons_of_mem c hm))) (by simp [hrest])
      | none =>
          simp only [lastAtIndex, hrest]
          by_cases hc : c = '@'
          · simp [hc]
          · simp only [if_neg hc]
            simp [List.mem_cons, ih.mp hrest, hc, Ne.symm hc]

theorem lastAtIndex_append (pre suf : List Char) (hsuf : '@' ∉ suf) :
    lastAtIndex (pre ++ '@' :: suf) = some pre.length := by
  induction pre with
  | nil =>
      have h0 : lastAtIndex suf = none := (lastAtIndex_none_iff suf).mpr hsuf
      simp [lastAtIndex, h0]
  | cons c pre ih =>
      simp [lastAtIndex, ih]

theorem lastAtIndex_decomp (t : List Char) (i : Nat) (h : lastAtIndex t = some i) :
    ∃ pre, t = pre ++ '@' :: t.drop (i + 1) ∧ pre.length = i ∧ '@' ∉ t.drop (i + 1) := by
  induction t generalizing i with
  | nil => simp [lastAtIndex] at h
  | cons c rest ih =>
      cases hrest : lastAtIndex rest with
      | some j =>
          rw [lastAtIndex, hrest] at h
          have hij : i = j + 1 := (Option.some.inj h).symm
          subst hij
          obtain ⟨pre, hdec, hlen, hnot⟩ := ih j hrest
          refine ⟨c :: pre, ?_, by simp [hlen], by simpa using hnot⟩
          simpa [List.cons_append] using congrArg (c :: ·) hdec
      | none =>
          rw [lastAtIndex, hrest] at h
          by_cases hc : c = '@'
          · rw [if_pos hc] at h
            have hi : i = 0 := (Option.some.inj h).symm
            subst hi
            exact ⟨[], by simp [hc], rfl, by simpa using (lastAtIndex_none_iff rest).mp hrest⟩
          · rw [if_neg hc] at h
            exact absurd h (by simp)

theorem drop_append_cons (pre suf : List Char) (c : Char) :
    (pre ++ c :: suf).drop (pre.length + 1) = suf := by
  induction pre with
  | nil => simp
  | cons d pre ih => simp [ih]

/-- C5 counterexample: on input `"@a<TAB>b"` with the caret at the end, the
substring after the last at sign contains the whitespace character TAB, so
the claim says the trigger must not activate — but `handleTextChange` only
terminates the token on the space character, so it activates with query
`"a<TAB>b"`. -/
theorem claim5_counterexample :
    handleTextChange ('@' :: 'a' :: '\t' :: 'b' :: []) = some ('a' :: '\t' :: 'b' :: [])
    ∧ '\t' ∈ ('a' :: '\t' :: 'b' :: [])
    ∧ '\t'.isWhitespace = true := by
  refine ⟨by decide, by decide, by decide⟩

/-- C5 (amended): the mention trigger activates exactly when the substring
after the last at sign (up to the caret, which sits at the end) is
non-empty and contains no space character (not: no whitespace), and the
active query is that substring; `"hello @jo"` activates with query `"jo"`,
`"hello @jo smith"` does not activate, and a bare at sign does not activate
and issues no directory lookup. -/
theorem claim5_amended_trigger :
    (∀ (t q : List Char), handleTextChange t = some q ↔
        ∃ pre, t = pre ++ '@' :: q ∧ '@' ∉ q ∧ q ≠ [] ∧ ' ' ∉ q)
    ∧ handleTextChange "hello @jo".toList = some "jo".toList
    ∧ handleTextChange "hello @jo smith".toList = none
    ∧ handleTextChange "hi @".toList = none
    ∧ handleTextChangeCalls "hi @".toList = false
    ∧ (∀ t q, handleTextChange t = some q → handleTextChangeCalls t = true) := by
  have hiff : ∀ (t q : List Char), handleTextChange t = some q ↔
      ∃ pre, t = pre ++ '@' :: q ∧ '@' ∉ q ∧ q ≠ [] ∧ ' ' ∉ q := by
    intro t q
    constructor
    · intro h
      rw [handleTextChange] at h
      cases hlast : lastAtIndex t with
      | none => rw [hlast] at h; exact absurd h (by simp)
      | some i =>
          rw [hlast] at h
          dsimp only at h
          by_cases hcond : ¬(t.drop (i + 1)).contains ' ' = true
              ∧ (t.drop (i + 1)).length > 0
          · rw [if_pos hcond] at h
            have hq : q = t.drop (i + 1) := (Option.some.inj h).symm
            obtain ⟨pre, hdec, hlen, hnot⟩ := lastAtIndex_decomp t i hlast
            refine ⟨pre, by rw [hq]; exact hdec, by rw [hq]; exact hnot, ?_, ?_⟩
            · intro hnil
              rw [hnil] at hq
              rw [← hq] at hcond
              simp at hcond
            · intro hsp
              rw [hq] at hsp
              exact hcond.1 (by simpa using hsp)
          · rw [if_neg hcond] at h
            exact absurd h (by simp)
    · rintro ⟨pre, hdec, hat, hne, hsp⟩
      rw [handleTextChange, hdec, lastAtIndex_append pre q hat]
      dsimp only
      rw [drop_append_cons]
      have hcond : ¬(q.contains ' ') = true ∧ q.length > 0 := by
        refine ⟨fun hc => hsp (by simpa using hc), ?_⟩
        cases q with
        | nil => exact absurd rfl hne
        | cons a l => simp
      rw [if_pos hcond]
  refine ⟨hiff, by decide, by decide, by decide, by decide, ?_⟩
  intro t q h
  obtain ⟨pre, _, _, hne, _⟩ := (hiff t q).mp h
  rw [handleTextChangeCalls, h]
  cases q with
  | nil => exact absurd rfl hne
  | cons a l => simp [searchEmployeesIssues]

/-- The QA workflow state held by `QASection` (`qaData`), QASection.js
lines 7-21.  Nullable string fields (dates) are `Option String`; the
component's initializer coerces falsy values to null, so `none` models
both. -/
structure QAData where
  qa_status : String
  qa_assigned_id : Option Nat
  qa_assigned_date : Option String
  qa_started_date : Option String
  qa_test_plan_check : Bool
  qa_test_release_notes_check : Bool
  qa_completed : Bool
  qa_signature : String
  qa_completed_date : Option String
  qa_notes : String
  qa_test_plan_link : String
  qa_blocked_reason : String
  qa_overall_result : Option String
deriving DecidableEq, Repr

/-- JavaScript truthiness of a string-or-null value: `null`/`undefined`
and the empty string are falsy. -/
def jsTruthyStr (o : Option String) : Bool :=
  o.getD "" != ""

/-- The `updates` object computed by `handleStatusChange` (QASection.js
lines 65-77): copy the state with the new status; stamp
`qa_started_date` when moving to "In Testing" with no started date; set
`qa_completed` and stamp `qa_completed_date` when moving to "Passed" or
"Failed".  `now` is the ISO timestamp `new Date().toISOString()`. -/
def statusChangeUpdates (st : QAData) (newStatus now : String) : QAData :=
  let u1 := { st with qa_status := newStatus }
  let u2 :=
    if newStatus == "In Testing" && !jsTruthyStr st.qa_started_date then
      { u1 with qa_started_date := some now }
    else u1
  if newStatus == "Passed" || newStatus == "Failed" then
    { u2 with qa_completed := true, qa_completed_date := some now }
  else u2

/-- The observable course of one optimistic mutation: the state set
optimistically before the request, the payload sent to
`amendmentAPI.updateQA`, and the state after the request settles. -/
structure MutationRun where
  optimistic : QAData
  payload : QAData
  final : QAData
deriving DecidableEq, Repr

/-- `handleStatusChange` (QASection.js lines 65-89): capture `prevData`,
compute `updates`, `setQaData(updates)`, persist `updates`; the catch
handler restores `prevData` on failure. -/
def handleStatusChange (st : QAData) (newStatus now : String) (ok : Bool) : MutationRun :=
  let updates := statusChangeUpdates st newStatus now
  ⟨updates, updates, if ok then updates else st⟩

/-- `handleAssign` (QASection.js lines 91-111): set assignee and
assignment date, bump "Not Started" to "Assigned", optimistic set,
rollback to `prevData` on failure. -/
def handleAssign (st : QAData) (eid : Nat) (now : String) (ok : Bool) : MutationRun :=
  let updates := { st with
    qa_assigned_id := some eid,
    qa_assigned_date := some now,
    qa_status := if st.qa_status == "Not Started" then "Assigned" else st.qa_status }
  ⟨updates, updates, if ok then updates else st⟩

/-- The two checklist fields toggled by `handleChecklistChange`. -/
inductive ChecklistField where
  | testPlanCheck
  | releaseNotesCheck
deriving DecidableEq, Repr

/-- `handleChecklistChange` (QASection.js lines 113-127): flip the given
boolean field, optimistic set, rollback to `prevData` on failure. -/
def handleChecklistChange (st : QAData) (f : ChecklistField) (ok : Bool) : MutationRun :=
  let updates :=
    match f with
    | .testPlanCheck => { st with qa_test_plan_check := !st.qa_test_plan_check }
    | .releaseNotesCheck =>
        { st with qa_test_release_notes_check := !st.qa_test_release_notes_check }
  ⟨updates, updates, if ok then updates else st⟩

/-- `handleOverallResultChange` (QASection.js lines 153-167): set the
overall result, optimistic set, rollback to `prevData` on failure. -/
def handleOverallResultChange (st : QAData) (r : Option String) (ok : Bool) : MutationRun :=
  let updates := { st with qa_overall_result := r }
  ⟨updates, updates, if ok then updates else st⟩

/-- Editing the notes text in the notes modal mutates `qaData` directly
through the textarea's onChange (QASection.js lines 566-573). -/
def notesModalEdit (st : QAData) (text : String) : QAData :=
  { st with qa_notes := text }

/-- `handleSaveNotes` (QASection.js lines 129-140): persists the current
`qaData`; the catch handler only logs — no previous snapshot is captured
and no rollback happens, so the state is the same whether the call
succeeds or fails. -/
def handleSaveNotes (st : QAData) (_ok : Bool) : MutationRun :=
  ⟨st, st, st⟩

/-- The full notes mutation flow: edit the notes in the modal, then save
with the given outcome; the result is the observable state afterwards. -/
def notesFlow (prev : QAData) (text : String) (ok : Bool) : QAData :=
  (handleSaveNotes (notesModalEdit prev text) ok).final

/-- A concrete baseline QA state. -/
def qaBase : QAData :=
  ⟨"Not Started", none, none, none, false, false, false, "", none,
   "old notes", "", "", none⟩

/-- C3 counterexample: the notes mutation is not rolled back.  Starting
from a state with notes "old notes", editing to "new notes" and saving
with a failing persistence call leaves the observable state with
"new notes" — not equal to the pre-mutation state. -/
theorem claim3_counterexample :
    (notesFlow qaBase "new notes" false).qa_notes = "new notes"
    ∧ qaBase.qa_notes = "old notes"
    ∧ notesFlow qaBase "new notes" false ≠ qaBase := by
  refine ⟨rfl, rfl, by decide⟩

/-- C3 (amended): on a failed persistence call, the observable state
equals the pre-mutation state for status transitions, assignment,
checklist toggles and overall-result selection; the notes mutation is NOT
rolled back — after a failed save the state keeps the edited notes. -/
theorem claim3_amended_rollback (st : QAData) (ns now : String) (eid : Nat)
    (f : ChecklistField) (r : Option String) (text : String) :
    (handleStatusChange st ns now false).final = st
    ∧ (handleAssign st eid now false).final = st
    ∧ (handleChecklistChange st f false).final = st
    ∧ (handleOverallResultChange st r false).final = st
    ∧ notesFlow st text false = notesModalEdit st text := by
  refine ⟨rfl, rfl, ?_, rfl, rfl⟩
  cases f <;> rfl

/-- C6: moving to "In Testing" with no started date stamps the started
timestamp; moving to "Passed" or "Failed" sets the completed flag and
stamps the completion timestamp when none was set; the stamps are part of
the `updates` object, which is both the optimistically applied state and
the persisted payload. -/
theorem claim6_status_stamps (st : QAData) (ns now : String) (ok : Bool) :
    (ns = "In Testing" → jsTruthyStr st.qa_started_date = false →
        (statusChangeUpdates st ns now).qa_started_date = some now)
    ∧ ((ns = "Passed" ∨ ns = "Failed") →
        (statusChangeUpdates st ns now).qa_completed = true
        ∧ (statusChangeUpdates st ns now).qa_completed_date = some now)
    ∧ (handleStatusChange st ns now ok).optimistic = statusChangeUpdates st ns now
    ∧ (handleStatusChange st ns now ok).payload = statusChangeUpdates st ns now := by
  refine ⟨?_, ?_, rfl, rfl⟩
  · intro hns hstarted
    subst hns
    rw [statusChangeUpdates]
    simp [hstarted]
  · intro hns
    rcases hns with hns | hns <;> subst hns <;>
      rw [statusChangeUpdates] <;> simp

theorem claim6_status_stamps_witness :
    (statusChangeUpdates qaBase "In Testing" "T0").qa_started_date = some "T0"
    ∧ (statusChangeUpdates qaBase "Passed" "T1").qa_completed = true
    ∧ (statusChangeUpdates qaBase "Passed" "T1").qa_completed_date = some "T1"
    ∧ (handleStatusChange qaBase "Passed" "T1" true).payload
        = statusChangeUpdates qaBase "Passed" "T1" :=
  ⟨(claim6_status_stamps qaBase "In Testing" "T0" true).1 rfl (by decide),
   ((claim6_status_stamps qaBase "Passed" "T1" true).2.1 (Or.inl rfl)).1,
   ((claim6_status_stamps qaBase "Passed" "T1" true).2.1 (Or.inl rfl)).2,
   (claim6_status_stamps qaBase "Passed" "T1" true).2.2.2⟩

/-- The per-comment state of a `CommentReactions` instance: the `loading`
flag, plus the number of toggle requests currently in flight (the request
between `apiClient.post` and the `finally` block). -/
structure ReactState where
  loading : Bool
  inflight : Nat
deriving DecidableEq, Repr

/-- Initial state of every `CommentReactions` instance: not loading, no
request in flight. -/
def rInit : Nat → ReactState := fun _ => ⟨false, 0⟩

/-- Events of the reaction subsystem: a user clicks a toggle for a
comment's emoji, or an in-flight toggle request for a comment settles
(its `finally` block runs). -/
inductive REvent where
  | toggle (cid : Nat) (emoji : String)
  | settle (cid : Nat)
deriving DecidableEq, Repr

/-- The comment a given event concerns. -/
def rTarget : REvent → Nat
  | .toggle cid _ => cid
  | .settle cid => cid

/-- One step of the reaction subsystem, per `toggleReaction`
(CommentReactions.js lines 50-65): a toggle is ignored when `loading` is
set (`if (loading) return`); otherwise it sets `loading` and issues the
request; when a request settles, its `finally` clears `loading`. -/
def rStep (σ : Nat → ReactState) : REvent → (Nat → ReactState)
  | .toggle cid _ =>
      if (σ cid).loading then σ
      else fun k => if k = cid then ⟨true, (σ cid).inflight + 1⟩ else σ k
  | .settle cid =>
      if (σ cid).inflight > 0 then
        fun k => if k = cid then ⟨false, (σ cid).inflight - 1⟩ else σ k
      else σ

/-- Run the reaction subsystem over a sequence of events. -/
def rRun (evs : List REvent) : Nat → ReactState :=
  evs.foldl rStep rInit

/-- The invariant of the reaction subsystem: each comment is either idle
with no request in flight, or loading with exactly one. -/
def RInv (σ : Nat → ReactState) : Prop :=
  ∀ k, σ k = ⟨true, 1⟩ ∨ σ k = ⟨false, 0⟩

theorem rStep_inv (σ : Nat → ReactState) (e : REvent) (h : RInv σ) :
    RInv (rStep σ e) := by
  cases e with
  | toggle cid em =>
      rw [rStep]
      by_cases hl : (σ cid).loading
      · rw [if_pos hl]; exact h
      · rw [if_neg hl]
        intro k
        by_cases hk : k = cid
        · rcases h cid with hc | hc
          · rw [hc] at hl; simp at hl
          · simp [hk, hc]
        · simp only [if_neg hk]
          exact h k
  | settle cid =>
      rw [rStep]
      by_cases hl : (σ cid).inflight > 0
      · rw [if_pos hl]
        intro k
        by_cases hk : k = cid
        · rcases h cid with hc | hc
          · simp [hk, hc]
          · rw [hc] at hl; simp at hl
        · simp only [if_neg hk]
          exact h k
      · rw [if_neg hl]; exact h

theorem rRun_inv (evs : List REvent) : RInv (rRun evs) := by
  rw [rRun]
  have h0 : RInv rInit := fun k => Or.inr rfl
  have := foldl_inv rStep (fun σ _ => RInv σ)
    (fun σ pre e hσ => rStep_inv σ e hσ) evs rInit [] h0
  exact this

/-- C9: at most one toggle request is ever in flight for a given comment
(the guard ignores further toggles while `loading` is set, so no second
request is issued), and an event for one comment never touches the state
of another comment — toggles for different comments are independent. -/
theorem claim9_reaction_guard (evs : List REvent) (cid : Nat) :
    (rRun evs cid).inflight ≤ 1
    ∧ (∀ (σ : Nat → ReactState) (em : String) (k : Nat),
        (σ cid).loading = true → rStep σ (.toggle cid em) k = σ k)
    ∧ (∀ (σ : Nat → ReactState) (e : REvent),
        rTarget e ≠ cid → rStep σ e cid = σ cid) := by
  refine ⟨?_, ?_, ?_⟩
  · rcases rRun_inv evs cid with hc | hc <;> simp [hc]
  · intro σ em k hl
    rw [rStep, if_pos hl]
  · intro σ e hne
    cases e with
    | toggle c em =>
        rw [rTarget] at hne
        rw [rStep]
        by_cases hl : (σ c).loading
        · rw [if_pos hl]
        · rw [if_neg hl, if_neg (Ne.symm hne)]
    | settle c =>
        rw [rTarget] at hne
        rw [rStep]
        by_cases hl : (σ c).inflight > 0
        · rw [if_pos hl, if_neg (Ne.symm hne)]
        · rw [if_neg hl]

/-- Witness trace for C9: two toggles for comment 1 (the second while the
first is in flight, hence ignored) and one toggle for comment 2; both
comments end with exactly one request in flight, independently. -/
theorem claim9_reaction_guard_witness :
    (rRun [REvent.toggle 1 "+1", REvent.toggle 1 "+1", REvent.toggle 2 "+1"] 1).inflight ≤ 1
    ∧ rStep (rRun [REvent.toggle 1 "+1"]) (REvent.toggle 1 "+1") 1
        = rRun [REvent.toggle 1 "+1"] 1
    ∧ rStep (rRun [REvent.toggle 1 "+1"]) (REvent.toggle 2 "+1") 1
        = rRun [REvent.toggle 1 "+1"] 1
    ∧ (rRun [REvent.toggle 1 "+1", REvent.toggle 1 "+1", REvent.toggle 2 "+1"] 1).inflight = 1
    ∧ (rRun [REvent.toggle 1 "+1", REvent.toggle 1 "+1", REvent.toggle 2 "+1"] 2).inflight = 1 :=
  ⟨(claim9_reaction_guard [REvent.toggle 1 "+1", REvent.toggle 1 "+1",
      REvent.toggle 2 "+1"] 1).1,
   (claim9_reaction_guard [] 1).2.1 (rRun [REvent.toggle 1 "+1"]) "+1" 1 rfl,
   (claim9_reaction_guard [] 1).2.2 (rRun [REvent.toggle 1 "+1"]) (REvent.toggle 2 "+1")
      (by decide),
   rfl, rfl⟩

/-- Sequence an option-producing render over a list of siblings,
concatenating the rendered output (the `.map(...)` over `replies` /
`threadedComments` in the source, with `none` propagating fuel
exhaustion). -/
def optSeqMap (g : Nat → Option (List (Nat × Nat))) : List Nat → Option (List (Nat × Nat))
  | [] => some []
  | c :: rest =>
      match g c with
      | none => none
      | some a =>
          match optSeqMap g rest with
          | none => none
          | some b => some (a ++ b)

/-- Rendering of one `ThreadedComment` (QAComments.js lines 276-431):
render the comment at its depth, then recursively render every reply at
depth + 1.  The walk follows the node references through the heap (the id
map); `fuel` bounds the recursion, `none` meaning the walk did not finish
within the bound — the JS recursion is unbounded, so it terminates exactly
when some finite fuel suffices.  A dangling id (which `buildCommentTree`
never produces) renders nothing.  The result lists the
(comment id, depth) pairs in render order. -/
def renderNode (m : List (Nat × CNode)) : Nat → Nat → Nat → Option (List (Nat × Nat))
  | 0, _, _ => none
  | f + 1, cid, depth =>
      match alLookup m cid with
      | none => some []
      | some nd =>
          match optSeqMap (fun c => renderNode m f c (depth + 1)) nd.replies with
          | none => none
          | some kids => some ((cid, depth) :: kids)

/-- Rendering of a sequence of sibling nodes (`comment.replies.map(...)` /
the root `threadedComments.map(...)`). -/
def renderList (m : List (Nat × CNode)) (fuel : Nat) (cids : List Nat) (depth : Nat) :
    Option (List (Nat × Nat)) :=
  optSeqMap (fun c => renderNode m fuel c depth) cids

/-- Rendering the whole comment view: `buildCommentTree` then the
recursive render of the roots at depth 0. -/
def renderForest (cs : List JComment) (fuel : Nat) : Option (List (Nat × Nat)) :=
  renderList (buildCommentTree cs).1 fuel (buildCommentTree cs).2 0

theorem renderList_ok (m : List (Nat × CNode)) (f : Nat) (depth : Nat) :
    ∀ cids : List Nat, (∀ c ∈ cids, (renderNode m f c depth).isSome) →
      (renderList m f cids depth).isSome := by
  intro cids
  induction cids with
  | nil => intro _; rw [renderList, optSeqMap]; rfl
  | cons cid rest ih =>
      intro h
      obtain ⟨a, ha⟩ := Option.isSome_iff_exists.mp (h cid (by simp))
      have hb0 := ih (fun c hc => h c (by simp [hc]))
      rw [renderList] at hb0
      obtain ⟨b, hb⟩ := Option.isSome_iff_exists.mp hb0
      rw [renderList, optSeqMap, ha, hb]
      rfl

/-- The holder of a node: the id of the node whose `replies` array its
node was pushed into — the comment's truthy parent reference, when that
parent exists in the map. -/
def holderOf (cs : List JComment) (cid : Nat) : Option Nat :=
  match origOf cs cid with
  | none => none
  | some c =>
      if jsTruthy c.parent_comment_id then
        if c.parent_comment_id.getD 0 ∈ idsOf cs then some (c.parent_comment_id.getD 0)
        else none
      else none

/-- Whether the id belongs to a comment with falsy parent reference (a
root of the built forest). -/
def isRootId (cs : List JComment) (cid : Nat) : Bool :=
  match origOf cs cid with
  | none => false
  | some c => !jsTruthy c.parent_comment_id

/-- The distance from a node to a root along the holder chain, computed
with fuel: `some k` when following holders reaches a root after `k` steps
within the fuel. -/
def rankF (cs : List JComment) : Nat → Nat → Option Nat
  | 0, _ => none
  | f + 1, cid =>
      if isRootId cs cid then some 0
      else
        match holderOf cs cid with
        | none => none
        | some p => (rankF cs f p).map (· + 1)

theorem rank_lt_fuel (cs : List JComment) :
    ∀ (f cid k : Nat), rankF cs f cid = some k → k < f := by
  intro f
  induction f with
  | zero => intro cid k h; exact absurd h (by simp [rankF])
  | succ f ih =>
      intro cid k h
      rw [rankF] at h
      by_cases hr : isRootId cs cid = true
      · rw [if_pos hr] at h
        have : k = 0 := (Option.some.inj h).symm
        omega
      · rw [if_neg hr] at h
        cases hh : holderOf cs cid with
        | none => rw [hh] at h; exact absurd h (by simp)
        | some p =>
            rw [hh] at h
            obtain ⟨j, hj, hk⟩ := Option.map_eq_some'.mp h
            have := ih p j hj
            omega

theorem rank_fuel_mono (cs : List JComment) :
    ∀ (k f fbig cid : Nat), rankF cs f cid = some k → k + 1 ≤ fbig →
      rankF cs fbig cid = some k := by
  intro k
  induction k with
  | zero =>
      intro f fbig cid h hle
      cases f with
      | zero => exact absurd h (by simp [rankF])
      | succ f0 =>
          rw [rankF] at h
          by_cases hr : isRootId cs cid = true
          · cases fbig with
            | zero => omega
            | succ f1 => rw [rankF, if_pos hr]
          · rw [if_neg hr] at h
            cases hh : holderOf cs cid with
            | none => rw [hh] at h; exact absurd h (by simp)
            | some p =>
                rw [hh] at h
                obtain ⟨j, _, hk⟩ := Option.map_eq_some'.mp h
                omega
  | succ k ih =>
      intro f fbig cid h hle
      cases f with
      | zero => exact absurd h (by simp [rankF])
      | succ f0 =>
          rw [rankF] at h
          by_cases hr : isRootId cs cid = true
          · rw [if_pos hr] at h
            exact absurd (Option.some.inj h) (by omega)
          · rw [if_neg hr] at h
            cases hh : holderOf cs cid with
            | none => rw [hh] at h; exact absurd h (by simp)
            | some p =>
                rw [hh] at h
                obtain ⟨j, hj, hk⟩ := Option.map_eq_some'.mp h
                have hjk : j = k := by omega
                rw [hjk] at hj
                cases fbig with
                | zero => omega
                | succ f1 =>
                    have hp' : rankF cs f1 p = some k := ih f0 f1 p hj (by omega)
                    rw [rankF, if_neg hr, hh]
                    dsimp only
                    rw [hp']
                    rfl

theorem rank_functional (cs : List JComment) (f1 f2 cid k1 k2 : Nat)
    (h1 : rankF cs f1 cid = some k1) (h2 : rankF cs f2 cid = some k2) : k1 = k2 := by
  have ha := rank_fuel_mono cs k1 f1 (k1 + k2 + 1) cid h1 (by omega)
  have hb := rank_fuel_mono cs k2 f2 (k1 + k2 + 1) cid h2 (by omega)
  rw [ha] at hb
  exact Option.some.inj hb

theorem holder_some_mem (cs : List JComment) (cid p : Nat)
    (h : holderOf cs cid = some p) : cid ∈ idsOf cs ∧ p ∈ idsOf cs := by
  rw [holderOf] at h
  cases horig : origOf cs cid with
  | none => rw [horig] at h; exact absurd h (by simp)
  | some c =>
      rw [horig] at h
      dsimp only at h
      by_cases htr : jsTruthy c.parent_comment_id = true
      · rw [if_pos htr] at h
        by_cases hmem : c.parent_comment_id.getD 0 ∈ idsOf cs
        · rw [if_pos hmem] at h
          have hp : c.parent_comment_id.getD 0 = p := Option.some.inj h
          exact ⟨mem_ids_of_origOf cs cid c horig, hp ▸ hmem⟩
        · rw [if_neg hmem] at h
          exact absurd h (by simp)
      · rw [if_neg htr] at h
        exact absurd h (by simp)

theorem isRootId_mem (cs : List JComment) (cid : Nat)
    (h : isRootId cs cid = true) : cid ∈ idsOf cs := by
  rw [isRootId] at h
  cases horig : origOf cs cid with
  | none => rw [horig] at h; exact absurd h (by simp)
  | some c => exact mem_ids_of_origOf cs cid c horig

theorem rank_chain (cs : List JComment) :
    ∀ (k f cid : Nat), rankF cs f cid = some k →
      ∃ l : List Nat, l.length = k + 1 ∧ l.Nodup ∧ (∀ x ∈ l, x ∈ idsOf cs) ∧
        (∀ x ∈ l, ∃ j g, j ≤ k ∧ rankF cs g x = some j) := by
  intro k
  induction k with
  | zero =>
      intro f cid h
      cases f with
      | zero => exact absurd h (by simp [rankF])
      | succ f0 =>
          rw [rankF] at h
          by_cases hr : isRootId cs cid = true
          · refine ⟨[cid], rfl, by simp, ?_, ?_⟩
            · intro x hx
              rw [List.mem_singleton.mp hx]
              exact isRootId_mem cs cid hr
            · intro x hx
              rw [List.mem_singleton.mp hx]
              exact ⟨0, f0 + 1, Nat.le_refl 0, h⟩
          · rw [if_neg hr] at h
            cases hh : holderOf cs cid with
            | none => rw [hh] at h; exact absurd h (by simp)
            | some p =>
                rw [hh] at h
                obtain ⟨j, _, hk⟩ := Option.map_eq_some'.mp h
                omega
  | succ k ih =>
      intro f cid h
      cases f with
      | zero => exact absurd h (by simp [rankF])
      | succ f0 =>
          have horiginal := h
          rw [rankF] at h
          by_cases hr : isRootId cs cid = true
          · rw [if_pos hr] at h
            exact absurd (Option.some.inj h) (by omega)
          · rw [if_neg hr] at h
            cases hh : holderOf cs cid with
            | none => rw [hh] at h; exact absurd h (by simp)
            | some p =>
                rw [hh] at h
                obtain ⟨j, hj, hk⟩ := Option.map_eq_some'.mp h
                have hjk : j = k := by omega
                rw [hjk] at hj
                obtain ⟨l, hlen, hnd, hmem, hrank⟩ := ih f0 p hj
                have hnotin : cid ∉ l := by
                  intro hin
                  obtain ⟨j', g, hj', hg⟩ := hrank cid hin
                  have := rank_functional cs g (f0 + 1) cid j' (k + 1) hg horiginal
                  omega
                refine ⟨cid :: l, by simp [hlen], List.nodup_cons.mpr ⟨hnotin, hnd⟩, ?_, ?_⟩
                · intro x hx
                  rcases List.mem_cons.mp hx with hx | hx
                  · rw [hx]
                    exact (holder_some_mem cs cid p hh).1
                  · exact hmem x hx
                · intro x hx
                  rcases List.mem_cons.mp hx with hx | hx
                  · rw [hx]
                    exact ⟨k + 1, f0 + 1, Nat.le_refl _, horiginal⟩
                  · obtain ⟨j', g, hj', hg⟩ := hrank x hx
                    exact ⟨j', g, by omega, hg⟩

theorem nodup_subset_length {l L : List Nat} (hnd : l.Nodup) (hsub : ∀ x ∈ l, x ∈ L) :
    l.length ≤ L.length := by
  calc l.length = l.toFinset.card := (List.toFinset_card_of_nodup hnd).symm
    _ ≤ L.toFinset.card := Finset.card_le_card
        (fun x hx => List.mem_toFinset.mpr (hsub x (List.mem_toFinset.mp hx)))
    _ ≤ L.length := L.toFinset_card_le

theorem rank_lt_len (cs : List JComment) (f cid k : Nat)
    (h : rankF cs f cid = some k) : k < cs.length := by
  obtain ⟨l, hlen, hnd, hmem, _⟩ := rank_chain cs k f cid h
  have := nodup_subset_length hnd hmem
  rw [hlen] at this
  have hlenids : (idsOf cs).length = cs.length := by
    rw [idsOf, List.length_map]
  omega

theorem origOf_self (cs : List JComment) (hnd : (idsOf cs).Nodup) (d : JComment)
    (hd : d ∈ cs) : origOf cs d.comment_id = some d := by
  obtain ⟨e, he⟩ := Option.isSome_iff_exists.mp
    (origOf_isSome cs d.comment_id (List.mem_map_of_mem (·.comment_id) hd))
  have hee : e ∈ cs := List.mem_of_find?_eq_some he
  have heid : e.comment_id = d.comment_id := by
    have := List.find?_some he
    simpa using this
  rw [he, id_inj cs hnd hee hd heid]

theorem holder_of_child (cs : List JComment) (hnd : (idsOf cs).Nodup)
    (cid c2 : Nat) (hcid : cid ∈ idsOf cs) (hc2 : c2 ∈ childList cs cid) :
    holderOf cs c2 = some cid ∧ isRootId cs c2 = false := by
  obtain ⟨d, hd, hdc⟩ := List.mem_map.mp hc2
  obtain ⟨hdm, hdgoes⟩ := List.mem_filter.mp hd
  have hgoes' : jsTruthy d.parent_comment_id = true
      ∧ (d.parent_comment_id.getD 0 == cid) = true := by
    have h' := hdgoes
    rw [goesTo] at h'
    simpa only [Bool.and_eq_true] using h'
  have htr : jsTruthy d.parent_comment_id = true := hgoes'.1
  have htarget : d.parent_comment_id.getD 0 = cid := by simpa using hgoes'.2
  have horig : origOf cs c2 = some d := hdc ▸ origOf_self cs hnd d hdm
  constructor
  · rw [holderOf, horig]
    dsimp only
    rw [if_pos htr, htarget, if_pos hcid]
  · rw [isRootId, horig]
    dsimp only
    rw [htr]
    rfl

theorem childRank (cs : List JComment) (hnd : (idsOf cs).Nodup)
    (cid c2 k F : Nat) (hcid : cid ∈ idsOf cs)
    (hrank : rankF cs F cid = some k) (hc2 : c2 ∈ childList cs cid) :
    rankF cs (cs.length + 1) c2 = some (k + 1) := by
  obtain ⟨hhold, hroot⟩ := holder_of_child cs hnd cid c2 hcid hc2
  have hcidrank : rankF cs (k + 1) cid = some k :=
    rank_fuel_mono cs k F (k + 1) cid hrank (Nat.le_refl _)
  have hstep : rankF cs (k + 1 + 1) c2 = some (k + 1) := by
    rw [rankF, if_neg (by simp [hroot]), hhold]
    dsimp only
    rw [hcidrank]
    rfl
  have hbound : k + 1 < cs.length := rank_lt_len cs (k + 1 + 1) c2 (k + 1) hstep
  exact rank_fuel_mono cs (k + 1) (k + 1 + 1) (cs.length + 1) c2 hstep (by omega)

theorem root_rank (cs : List JComment) (hnd : (idsOf cs).Nodup)
    (r : Nat) (hr : r ∈ (buildCommentTree cs).2) :
    rankF cs (cs.length + 1) r = some 0 := by
  obtain ⟨-, hroots⟩ := buildCommentTree_spec cs hnd
  rw [hroots, rootList] at hr
  obtain ⟨d, hd, hdr⟩ := List.mem_map.mp hr
  obtain ⟨hdm, hdfalsy⟩ := List.mem_filter.mp hd
  have horig : origOf cs r = some d := hdr ▸ origOf_self cs hnd d hdm
  have hroot : isRootId cs r = true := by
    rw [isRootId, horig]
    dsimp only
    simpa using hdfalsy
  rw [show cs.length + 1 = cs.length + 1 from rfl, rankF, if_pos hroot]

theorem renderNode_ok (cs : List JComment) (hnd : (idsOf cs).Nodup) :
    ∀ (fuel cid k depth : Nat),
      rankF cs (cs.length + 1) cid = some k → cs.length + 1 ≤ k + fuel →
      (renderNode (buildCommentTree cs).1 fuel cid depth).isSome := by
  intro fuel
  induction fuel with
  | zero =>
      intro cid k depth hr hle
      have := rank_lt_len cs (cs.length + 1) cid k hr
      omega
  | succ f ih =>
      intro cid k depth hr hle
      cases hlook : alLookup (buildCommentTree cs).1 cid with
      | none => rw [renderNode, hlook]; rfl
      | some nd =>
          have hspec := (buildCommentTree_spec cs hnd).1 cid
          rw [hlook] at hspec
          cases horig : origOf cs cid with
          | none => rw [horig] at hspec; exact absurd hspec (by simp)
          | some oc =>
              rw [horig] at hspec
              have hnd_eq : nd = ⟨oc, childList cs cid⟩ := by
                have := Option.some.inj hspec
                rw [this]
              have hcid_ids : cid ∈ idsOf cs := mem_ids_of_origOf cs cid oc horig
              have hkids : (renderList (buildCommentTree cs).1 f
                  (childList cs cid) (depth + 1)).isSome := by
                apply renderList_ok
                intro c2 hc2
                exact ih c2 (k + 1) (depth + 1)
                  (childRank cs hnd cid c2 k (cs.length + 1) hcid_ids hr hc2)
                  (by omega)
              obtain ⟨kids, hkids'⟩ := Option.isSome_iff_exists.mp hkids
              rw [renderList] at hkids'
              rw [renderNode, hlook, hnd_eq]
              dsimp only
              rw [hkids']
              rfl

/-- C4 (amended): for every input list with unique ids — including lists
whose `parentId` references form a cycle — building the comment tree and
rendering it terminate: fuel one more than the list length always
suffices, because following holders up from any node reachable from the
roots reaches a root along a cycle-free chain, and the members of a
`parentId` cycle are never reachable from the roots (they are simply not
rendered).  There is no depth cap in the code: nodes at any depth are
rendered normally (see the counterexample for depth 51). -/
theorem claim4_render_terminates (cs : List JComment) (hnd : (idsOf cs).Nodup) :
    (renderForest cs (cs.length + 1)).isSome := by
  rw [renderForest]
  apply renderList_ok
  intro r hr
  exact renderNode_ok cs hnd (cs.length + 1) r 0 0 (root_rank cs hnd r hr) (by omega)

/-- A malformed input whose parent references form a cycle: comment 1's
parent is 2 and comment 2's parent is 1. -/
def wCycle : List JComment :=
  [⟨1, some 2, 7, "a", "General"⟩, ⟨2, some 1, 7, "b", "General"⟩]

theorem claim4_render_terminates_witness :
    (renderForest wCycle (wCycle.length + 1)).isSome :=
  claim4_render_terminates wCycle (by decide)

/-- A 52-comment chain: comment 1 is a root and comment i+1 replies to
comment i, so comment 52 sits at depth 51. -/
def deepChain : List JComment :=
  (List.range 52).map (fun i => ⟨i + 1, if i = 0 then none else some i, 7, "t", "General"⟩)

set_option maxRecDepth 40000 in
/-- C4 counterexample: the code has no depth bound.  On a 52-comment
chain, rendering succeeds and the node with id 52 is rendered at depth 51
— beyond the claimed generous bound of 50 — instead of being treated as a
rendering error. -/
theorem claim4_counterexample :
    (renderForest deepChain 53).isSome = true
    ∧ (52, 51) ∈ (renderForest deepChain 53).getD [] := by
  refine ⟨by decide, by decide⟩

/-- A heap object for the explicit-store model of `buildCommentTree`: an
input comment record as held in the `comments` array, or a node object
`{ ...comment, replies: [...] }` allocated by the first pass (its
`replies` array holds addresses of other node objects). -/
inductive HObj where
  | comment (c : JComment)
  | node (c : JComment) (replies : List Nat)
deriving DecidableEq, Repr

/-- Write one heap cell. -/
def storeSet (σ : Nat → Option HObj) (a : Nat) (v : HObj) : Nat → Option HObj :=
  fun x => if x = a then some v else σ x

/-- First pass of `buildCommentTree` over an explicit store: for each input
address, read the comment record and allocate a fresh node object
`{ ...comment, replies: [] }` (a shallow clone — a new object, never the
input record), recording its address in the id map.  The running state is
(store, id map, next fresh address). -/
def pass1H (σ0 : Nat → Option HObj) (addrs : List Nat) (base : Nat) :
    (Nat → Option HObj) × List (Nat × Nat) × Nat :=
  addrs.foldl
    (fun st a =>
      match st.1 a with
      | some (.comment c) =>
          (storeSet st.1 st.2.2 (.node c []), alInsert st.2.1 c.comment_id st.2.2, st.2.2 + 1)
      | _ => st)
    (σ0, [], base)

/-- One step of the second pass over the explicit store: for an input
comment with truthy parent reference whose parent id is in the map, push
the comment's node address onto the parent NODE object's replies (a write
to the clone's address, never to an input record); for a falsy parent
reference, push the node address onto the root list (a local array, not a
heap write). -/
def pass2StepH (idMap : List (Nat × Nat)) (st : (Nat → Option HObj) × List Nat)
    (a : Nat) : (Nat → Option HObj) × List Nat :=
  match st.1 a with
  | some (.comment c) =>
      if jsTruthy c.parent_comment_id then
        match alLookup idMap (c.parent_comment_id.getD 0) with
        | some pa =>
            match st.1 pa with
            | some (.node pc rl) =>
                match alLookup idMap c.comment_id with
                | some ca => (storeSet st.1 pa (.node pc (rl ++ [ca])), st.2)
                | none => st
            | _ => st
        | none => st
      else
        match alLookup idMap c.comment_id with
        | some ca => (st.1, st.2 ++ [ca])
        | none => st
  | _ => st

/-- `buildCommentTree` over an explicit store: the input is the comments
array as a list of addresses of comment records in the store; the result
is the final store and the addresses of the root nodes. -/
def buildCommentTreeH (σ0 : Nat → Option HObj) (addrs : List Nat) (base : Nat) :
    (Nat → Option HObj) × List Nat :=
  match pass1H σ0 addrs base with
  | (σ1, idMap, _) => addrs.foldl (pass2StepH idMap) (σ1, [])

theorem storeSet_lt (σ : Nat → Option HObj) (a w : Nat) (v : HObj) (h : a ≠ w) :
    storeSet σ w v a = σ a := by
  rw [storeSet]
  simp [h]

theorem mem_alInsert {β : Type} (m : List (Nat × β)) (k : Nat) (v : β)
    (kv : Nat × β) (h : kv ∈ alInsert m k v) : kv ∈ m ∨ kv = (k, v) := by
  induction m with
  | nil =>
      rw [alInsert] at h
      exact Or.inr (List.mem_singleton.mp h)
  | cons kv0 rest ih =>
      obtain ⟨k0, v0⟩ := kv0
      rw [alInsert] at h
      by_cases hk : k0 = k
      · rw [if_pos hk] at h
        rcases List.mem_cons.mp h with h | h
        · exact Or.inr h
        · exact Or.inl (List.mem_cons_of_mem _ h)
      · rw [if_neg hk] at h
        rcases List.mem_cons.mp h with h | h
        · exact Or.inl (h ▸ List.mem_cons_self _ _)
        · rcases ih h with h | h
          · exact Or.inl (List.mem_cons_of_mem _ h)
          · exact Or.inr h

theorem alLookup_mem {β : Type} (m : List (Nat × β)) (k : Nat) (v : β)
    (h : alLookup m k = some v) : (k, v) ∈ m := by
  induction m with
  | nil => exact absurd h (by simp [alLookup])
  | cons kv0 rest ih =>
      obtain ⟨k0, v0⟩ := kv0
      rw [alLookup] at h
      by_cases hk : k0 = k
      · rw [if_pos hk] at h
        have := Option.some.inj h
        rw [hk, this]
        exact List.mem_cons_self _ _
      · rw [if_neg hk] at h
        exact List.mem_cons_of_mem _ (ih h)

/-- Invariant of the first pass: cells below `base` are untouched, the
fresh counter stays at or above `base`, and every allocated node address
in the id map is at or above `base`. -/
def P1Inv (σ0 : Nat → Option HObj) (base : Nat)
    (st : (Nat → Option HObj) × List (Nat × Nat) × Nat) : Prop :=
  (∀ a, a < base → st.1 a = σ0 a) ∧ base ≤ st.2.2 ∧ ∀ kv ∈ st.2.1, base ≤ kv.2

theorem pass1H_inv (σ0 : Nat → Option HObj) (addrs : List Nat) (base : Nat) :
    P1Inv σ0 base (pass1H σ0 addrs base) := by
  rw [pass1H]
  have h0 : P1Inv σ0 base (σ0, [], base) :=
    ⟨fun a _ => rfl, Nat.le_refl base, by simp⟩
  have := foldl_inv
    (fun st (a : Nat) =>
      match st.1 a with
      | some (.comment c) =>
          (storeSet st.1 st.2.2 (.node c []), alInsert st.2.1 c.comment_id st.2.2, st.2.2 + 1)
      | _ => st)
    (fun st _ => P1Inv σ0 base st)
    ?_ addrs (σ0, [], base) [] h0
  · exact this
  · intro st pre a hst
    obtain ⟨hlow, hfr, hmap⟩ := hst
    cases hread : st.1 a with
    | none => simpa [hread] using ⟨hlow, hfr, hmap⟩
    | some o =>
        cases o with
        | node c rl => simpa [hread] using ⟨hlow, hfr, hmap⟩
        | comment c =>
            refine ⟨?_, ?_, ?_⟩
            · intro x hx
              have hxw : x ≠ st.2.2 := by omega
              simp only [hread]
              rw [storeSet_lt st.1 x st.2.2 _ hxw]
              exact hlow x hx
            · simp only [hread]
              exact Nat.le_succ_of_le hfr
            · intro kv hkv
              simp only [hread] at hkv
              rcases mem_alInsert st.2.1 c.comment_id st.2.2 kv hkv with h | h
              · exact hmap kv h
              · rw [h]
                exact hfr

/-- Invariant of the second pass: cells below `base` are untouched and
every collected root address is at or above `base`. -/
def P2Inv (σ0 : Nat → Option HObj) (base : Nat)
    (st : (Nat → Option HObj) × List Nat) : Prop :=
  (∀ a, a < base → st.1 a = σ0 a) ∧ ∀ r ∈ st.2, base ≤ r

theorem pass2StepH_inv (σ0 : Nat → Option HObj) (base : Nat)
    (idMap : List (Nat × Nat)) (hmap : ∀ kv ∈ idMap, base ≤ kv.2)
    (st : (Nat → Option HObj) × List Nat) (a : Nat)
    (hst : P2Inv σ0 base st) : P2Inv σ0 base (pass2StepH idMap st a) := by
  obtain ⟨hlow, hroots⟩ := hst
  rw [pass2StepH]
  cases hread : st.1 a with
  | none => exact ⟨hlow, hroots⟩
  | some o =>
      cases o with
      | node c rl => exact ⟨hlow, hroots⟩
      | comment c =>
          dsimp only
          by_cases htr : jsTruthy c.parent_comment_id = true
          · rw [if_pos htr]
            cases hpa : alLookup idMap (c.parent_comment_id.getD 0) with
            | none => exact ⟨hlow, hroots⟩
            | some pa =>
                dsimp only
                cases hpo : st.1 pa with
                | none => exact ⟨hlow, hroots⟩
                | some po =>
                    cases po with
                    | comment pc => exact ⟨hlow, hroots⟩
                    | node pc rl =>
                        dsimp only
                        cases hca : alLookup idMap c.comment_id with
                        | none => exact ⟨hlow, hroots⟩
                        | some ca =>
                            dsimp only
                            refine ⟨?_, hroots⟩
                            intro x hx
                            have hpa_base : base ≤ pa :=
                              hmap (c.parent_comment_id.getD 0, pa) (alLookup_mem idMap _ pa hpa)
                            have hxw : x ≠ pa := by omega
                            dsimp only
                            rw [storeSet_lt st.1 x pa _ hxw]
                            exact hlow x hx
          · rw [if_neg htr]
            cases hca : alLookup idMap c.comment_id with
            | none => exact ⟨hlow, hroots⟩
            | some ca =>
                dsimp only
                refine ⟨hlow, ?_⟩
                intro r hr
                rcases List.mem_append.mp hr with hr | hr
                · exact hroots r hr
                · rw [List.mem_singleton.mp hr]
                  exact hmap (c.comment_id, ca) (alLookup_mem idMap _ ca hca)

/-- C10: `buildCommentTree` never mutates its input.  In the explicit-store
model, after building, every heap cell below the allocation base — in
particular every input comment record — holds exactly what it held before:
the first pass only allocates fresh node clones at or above the base, and
the second pass appends children only to those clones (and roots are
collected from them), never writing to an input record. -/
theorem claim10_input_never_mutated (σ0 : Nat → Option HObj) (addrs : List Nat)
    (base : Nat) (hbase : ∀ a ∈ addrs, a < base) :
    (∀ a, a < base → (buildCommentTreeH σ0 addrs base).1 a = σ0 a)
    ∧ (∀ a ∈ addrs, (buildCommentTreeH σ0 addrs base).1 a = σ0 a)
    ∧ (∀ r ∈ (buildCommentTreeH σ0 addrs base).2, base ≤ r) := by
  have h1 := pass1H_inv σ0 addrs base
  rw [buildCommentTreeH]
  cases hp1 : pass1H σ0 addrs base with
  | mk σ1 rest =>
      obtain ⟨idMap, fr⟩ := rest
      rw [hp1] at h1
      obtain ⟨hlow1, _, hmap1⟩ := h1
      have h2 : P2Inv σ0 base (addrs.foldl (pass2StepH idMap) (σ1, [])) := by
        have h0 : P2Inv σ0 base (σ1, []) := ⟨hlow1, by simp⟩
        have := foldl_inv (pass2StepH idMap) (fun st _ => P2Inv σ0 base st)
          (fun st pre a hst => pass2StepH_inv σ0 base idMap hmap1 st a hst)
          addrs (σ1, []) [] h0
        exact this
      exact ⟨h2.1, fun a ha => h2.1 a (hbase a ha), h2.2⟩

/-- A concrete two-record heap for the C10 witness: a root comment at
address 0 and a reply at address 1. -/
def wStore : Nat → Option HObj := fun a =>
  if a = 0 then some (.comment ⟨1, none, 7, "a", "General"⟩)
  else if a = 1 then some (.comment ⟨2, some 1, 7, "b", "General"⟩)
  else none

theorem claim10_input_never_mutated_witness :
    (buildCommentTreeH wStore [0, 1] 2).1 0 = wStore 0
    ∧ (buildCommentTreeH wStore [0, 1] 2).1 1 = wStore 1 :=
  ⟨(claim10_input_never_mutated wStore [0, 1] 2 (by decide)).1 0 (by decide),
   (claim10_input_never_mutated wStore [0, 1] 2 (by decide)).1 1 (by decide)⟩

end AmendQA
